import Mathlib

/-!
# Verification of the terabot download pipeline

A shallow embedding, in Lean 4, of the core components of the terabot
repository (a chat-bot that downloads files from direct URLs, optionally
zips them, and returns the result), together with proofs of the spec's
testable properties.

Embedded components (each definition is translated from the named source
file):
* `sanitize_filename`           — utils/file_utils.py
* `download_file` / `stream_download` — utils/downloader.py
* `create_zip`                  — utils/zipper.py
* `extract_urls`                — services/link_router.py
* `ProgressTracker`             — utils/progress.py
* `DirectLinkService.process` / `_process_urls` — services/direct_link_service.py, main.py

Strings are modelled as `List Char`; clock readings as exact rationals.
-/

/-! ## Filename sanitizer (utils/file_utils.py, `sanitize_filename`) -/

/-- The character class of `re.sub(r'[<>:"|?*]', "_", name)`:
characters illegal on common filesystems. -/
def reservedChar (c : Char) : Bool :=
  c == '<' || c == '>' || c == ':' || c == '"' || c == '|' || c == '?' || c == '*'

/-- Index of the last `'.'` in a list of characters, mirroring Python's
`str.rfind('.')` (`none` when absent). -/
def rfindDot : List Char → Option Nat
  | [] => none
  | c :: cs =>
    match rfindDot cs with
    | some i => some (i + 1)
    | none => if c = '.' then some 0 else none

/-- `pathlib.PurePath(name).stem` for a separator-free `name`:
the name up to its last dot, provided that dot is neither the first nor
the last character; otherwise the whole name. -/
def pyStem (s : List Char) : List Char :=
  match rfindDot s with
  | some i => if 0 < i ∧ i < s.length - 1 then s.take i else s
  | none => s

/-- `pathlib.PurePath(name).suffix` for a separator-free `name`:
the substring from the last dot on, provided that dot is neither the
first nor the last character; otherwise empty. -/
def pySuffix (s : List Char) : List Char :=
  match rfindDot s with
  | some i => if 0 < i ∧ i < s.length - 1 then s.drop i else []
  | none => []

/-- The character-cleaning stage of `sanitize_filename`:
`name.replace("/", "_").replace("\\", "_").replace("\x00", "")`,
then `name.lstrip(". ")`, then `re.sub(r'[<>:"|?*]', "_", name)`. -/
def pyClean (s : List Char) : List Char :=
  let s1 := (s.map (fun c => if c = '/' then '_' else c)).map
    (fun c => if c = '\\' then '_' else c)
  let s2 := s1.filter (fun c => c != '\x00')
  let s3 := s2.dropWhile (fun c => c == '.' || c == ' ')
  s3.map (fun c => if reservedChar c then '_' else c)

/-- The length-limiting stage of `sanitize_filename`:
`if len(name) > 200: name = Path(name).stem[:180] + Path(name).suffix`. -/
def pyTrunc (s : List Char) : List Char :=
  if 200 < s.length then (pyStem s).take 180 ++ pySuffix s else s

/-- `sanitize_filename` from utils/file_utils.py: clean, truncate, and
substitute the fallback name when the result is empty
(`return name or "unnamed_file"`). -/
def sanitize_filename (s : List Char) : List Char :=
  let name := pyClean s
  let name2 := pyTrunc name
  if name2 = [] then "unnamed_file".toList else name2

/-- A character the sanitizer's output is allowed to contain: not a path
separator, not a null byte, not one of the reserved characters. -/
def goodChar (c : Char) : Prop :=
  c ≠ '/' ∧ c ≠ '\\' ∧ c ≠ '\x00' ∧ reservedChar c = false

instance (c : Char) : Decidable (goodChar c) := by
  unfold goodChar; infer_instance

/-! ### Sanitizer lemmas -/

theorem listMapFix {α : Type} (f : α → α) :
    ∀ l : List α, (∀ c ∈ l, f c = c) → l.map f = l := by
  intro l h
  induction l with
  | nil => rfl
  | cons a as ih =>
    simp only [List.map_cons]
    rw [h a (List.mem_cons_self _ _), ih (fun c hc => h c (List.mem_cons_of_mem _ hc))]

theorem slashBack_ne (f : Char) :
    (if (if f = '/' then '_' else f) = '\\' then '_' else if f = '/' then '_' else f) ≠ '/' ∧
    (if (if f = '/' then '_' else f) = '\\' then '_' else if f = '/' then '_' else f) ≠ '\\' := by
  by_cases h1 : f = '/' <;> by_cases h2 : f = '\\' <;> simp [h1, h2]

theorem pyClean_good (s : List Char) : ∀ c ∈ pyClean s, goodChar c := by
  intro c hc
  unfold pyClean at hc
  simp only [List.mem_map] at hc
  obtain ⟨d, hd, rfl⟩ := hc
  have hd2 := (List.dropWhile_sublist _).subset hd
  simp only [List.mem_filter, List.mem_map] at hd2
  obtain ⟨⟨e, ⟨f, _, rfl⟩, rfl⟩, hnull⟩ := hd2
  have hne := slashBack_ne f
  have hnull2 : (if (if f = '/' then '_' else f) = '\\' then '_'
      else if f = '/' then '_' else f) ≠ '\x00' := by
    intro h; rw [h] at hnull; simp at hnull
  by_cases hr : reservedChar (if (if f = '/' then '_' else f) = '\\' then '_'
      else if f = '/' then '_' else f) = true
  · rw [if_pos hr]; decide
  · rw [if_neg hr]
    exact ⟨hne.1, hne.2, hnull2, Bool.eq_false_iff.mpr hr⟩

theorem pyClean_eq (s : List Char) :
    pyClean s = ((((s.map (fun c => if c = '/' then '_' else c)).map
      (fun c => if c = '\\' then '_' else c)).filter
      (fun c => c != '\x00')).dropWhile (fun c => c == '.' || c == ' ')).map
      (fun c => if reservedChar c then '_' else c) := rfl

theorem dropWhileHeadFalse {α : Type} (p : α → Bool) :
    ∀ (l : List α) (x : α) (xs : List α), l.dropWhile p = x :: xs → p x = false := by
  intro l
  induction l with
  | nil => intro x xs h; cases h
  | cons a as ih =>
    intro x xs h
    rw [List.dropWhile_cons] at h
    split at h
    · exact ih x xs h
    · next hp =>
      injection h with h1 h2
      subst h1
      exact Bool.eq_false_iff.mpr hp

theorem pyClean_head (s : List Char) (h : Char) (t : List Char)
    (he : pyClean s = h :: t) : h ≠ '.' ∧ h ≠ ' ' := by
  rw [pyClean_eq] at he
  obtain ⟨h0, t0, hcons⟩ : ∃ h0 t0, ((((s.map (fun c => if c = '/' then '_' else c)).map
      (fun c => if c = '\\' then '_' else c)).filter
      (fun c => c != '\x00')).dropWhile (fun c => c == '.' || c == ' ')) = h0 :: t0 := by
    cases hd : ((((s.map (fun c => if c = '/' then '_' else c)).map
      (fun c => if c = '\\' then '_' else c)).filter
      (fun c => c != '\x00')).dropWhile (fun c => c == '.' || c == ' ')) with
    | nil => rw [hd] at he; cases he
    | cons a b => exact ⟨a, b, rfl⟩
  have hhead := dropWhileHeadFalse _ _ _ _ hcons
  rw [hcons] at he
  simp only [List.map_cons, List.cons.injEq] at he
  have hh : h = if reservedChar h0 then '_' else h0 := he.1.symm
  simp only [Bool.or_eq_false_iff, beq_eq_false_iff_ne] at hhead
  by_cases hr : reservedChar h0 = true
  · rw [if_pos hr] at hh; rw [hh]; exact ⟨by decide, by decide⟩
  · rw [if_neg hr] at hh; rw [hh]; exact hhead

theorem rfindDot_eq_none (s : List Char) (h : ∀ c ∈ s, c ≠ '.') : rfindDot s = none := by
  induction s with
  | nil => rfl
  | cons a as ih =>
    unfold rfindDot
    rw [ih (fun c hc => h c (List.mem_cons_of_mem _ hc))]
    simp [h a (List.mem_cons_self _ _)]

theorem rfindDot_none_forall (s : List Char) (h : rfindDot s = none) :
    ∀ c ∈ s, c ≠ '.' := by
  induction s with
  | nil => simp
  | cons a as ih =>
    unfold rfindDot at h
    cases hr : rfindDot as with
    | some j => rw [hr] at h; cases h
    | none =>
      rw [hr] at h
      by_cases ha : a = '.'
      · rw [if_pos ha] at h; cases h
      · intro c hc
        rcases List.mem_cons.mp hc with rfl | hc
        · exact ha
        · exact ih hr c hc

theorem rfindDot_spec (s : List Char) (i : Nat) (h : rfindDot s = some i) :
    ∃ t r, s = t ++ '.' :: r ∧ t.length = i ∧ ∀ c ∈ r, c ≠ '.' := by
  induction s generalizing i with
  | nil => cases h
  | cons a as ih =>
    unfold rfindDot at h
    cases hr : rfindDot as with
    | some j =>
      rw [hr] at h
      obtain ⟨t, r, hs, hl, hdot⟩ := ih j hr
      injection h with h
      exact ⟨a :: t, r, by rw [hs]; rfl, by simp [hl, ← h], hdot⟩
    | none =>
      rw [hr] at h
      by_cases ha : a = '.'
      · rw [if_pos ha] at h
        injection h with h
        subst ha
        exact ⟨[], as, by simp, by simp [← h], rfindDot_none_forall as hr⟩
      · rw [if_neg ha] at h; cases h

theorem rfindDot_append (t r : List Char) (hr : ∀ c ∈ r, c ≠ '.') :
    rfindDot (t ++ '.' :: r) = some t.length := by
  induction t with
  | nil =>
    show rfindDot ('.' :: r) = some 0
    unfold rfindDot
    rw [rfindDot_eq_none r hr]
    simp
  | cons a as ih =>
    show rfindDot (a :: (as ++ '.' :: r)) = some (as.length + 1)
    unfold rfindDot
    rw [ih]

theorem pyStem_subset (s : List Char) : ∀ c ∈ pyStem s, c ∈ s := by
  intro c hc
  unfold pyStem at hc
  split at hc
  · split at hc
    · exact List.take_subset _ _ hc
    · exact hc
  · exact hc

theorem pySuffix_subset (s : List Char) : ∀ c ∈ pySuffix s, c ∈ s := by
  intro c hc
  unfold pySuffix at hc
  split at hc
  · split at hc
    · exact List.drop_subset _ _ hc
    · cases hc
  · cases hc

theorem pyTrunc_subset (s : List Char) : ∀ c ∈ pyTrunc s, c ∈ s := by
  intro c hc
  unfold pyTrunc at hc
  split at hc
  · rcases List.mem_append.mp hc with hc | hc
    · exact pyStem_subset s c (List.take_subset _ _ hc)
    · exact pySuffix_subset s c hc
  · exact hc

theorem pyStem_cons (h : Char) (t : List Char) : ∃ r, pyStem (h :: t) = h :: r := by
  unfold pyStem
  cases hr : rfindDot (h :: t) with
  | some i =>
    dsimp only
    by_cases hcond : 0 < i ∧ i < (h :: t).length - 1
    · rw [if_pos hcond, List.take_cons hcond.1]
      exact ⟨_, rfl⟩
    · rw [if_neg hcond]
      exact ⟨t, rfl⟩
  | none => exact ⟨t, rfl⟩

theorem pyTrunc_cons (h : Char) (t : List Char) :
    ∃ r, pyTrunc (h :: t) = h :: r := by
  unfold pyTrunc
  split
  · obtain ⟨r, hr⟩ := pyStem_cons h t
    rw [hr, List.take_cons (by norm_num : (0:Nat) < 180)]
    exact ⟨_, rfl⟩
  · exact ⟨t, rfl⟩

theorem pyTrunc_idem (s : List Char) : pyTrunc (pyTrunc s) = pyTrunc s := by
  by_cases hlen : 200 < s.length
  · have hs : pyTrunc s = (pyStem s).take 180 ++ pySuffix s := by
      unfold pyTrunc
      rw [if_pos hlen]
    rw [hs]
    cases hr : rfindDot s with
    | none =>
      have hsuf : pySuffix s = [] := by unfold pySuffix; rw [hr]
      have hshort : ¬ 200 < ((pyStem s).take 180 ++ pySuffix s).length := by
        rw [hsuf, List.append_nil, List.length_take]
        omega
      unfold pyTrunc
      rw [if_neg hshort]
    | some i =>
      by_cases hcond : 0 < i ∧ i < s.length - 1
      · have hstem : pyStem s = s.take i := by
          unfold pyStem; rw [hr]; dsimp only; rw [if_pos hcond]
        have hsuf : pySuffix s = s.drop i := by
          unfold pySuffix; rw [hr]; dsimp only; rw [if_pos hcond]
        obtain ⟨t0, r, hsplit, hlt, hdot⟩ := rfindDot_spec s i hr
        have htake : s.take i = t0 := by rw [hsplit, ← hlt, List.take_left]
        have hdrop : s.drop i = '.' :: r := by rw [hsplit, ← hlt, List.drop_left]
        rw [hstem, hsuf, htake, hdrop]
        by_cases hy : 200 < (t0.take 180 ++ '.' :: r).length
        · have hfind : rfindDot (t0.take 180 ++ '.' :: r) = some (t0.take 180).length :=
            rfindDot_append _ r hdot
          have hrlen : 0 < r.length := by
            have hslen : s.length = t0.length + 1 + r.length := by
              rw [hsplit]; simp [List.length_append]; omega
            omega
          have ht0len : 0 < t0.length := by omega
          have hm : 0 < (t0.take 180).length := by
            rw [List.length_take]; omega
          have hcond2 : 0 < (t0.take 180).length ∧
              (t0.take 180).length < (t0.take 180 ++ '.' :: r).length - 1 := by
            refine ⟨hm, ?_⟩
            rw [List.length_append, List.length_cons]
            omega
          have hstem2 : pyStem (t0.take 180 ++ '.' :: r) = t0.take 180 := by
            unfold pyStem; rw [hfind]; dsimp only
            rw [if_pos hcond2, List.take_left]
          have hsuf2 : pySuffix (t0.take 180 ++ '.' :: r) = '.' :: r := by
            unfold pySuffix; rw [hfind]; dsimp only
            rw [if_pos hcond2, List.drop_left]
          unfold pyTrunc
          rw [if_pos hy, hstem2, hsuf2, List.take_take, min_self]
        · unfold pyTrunc
          rw [if_neg hy]
      · have hstem : pyStem s = s := by
          unfold pyStem; rw [hr]; dsimp only; rw [if_neg hcond]
        have hsuf : pySuffix s = [] := by
          unfold pySuffix; rw [hr]; dsimp only; rw [if_neg hcond]
        have hshort : ¬ 200 < ((pyStem s).take 180 ++ pySuffix s).length := by
          rw [hsuf, List.append_nil, List.length_take]
          omega
        unfold pyTrunc
        rw [if_neg hshort]
  · have h0 : pyTrunc s = s := by unfold pyTrunc; rw [if_neg hlen]
    rw [h0, h0]

theorem pyClean_fix (y : List Char) (hg : ∀ c ∈ y, goodChar c)
    (hh : ∀ h t, y = h :: t → (h == '.' || h == ' ') = false) : pyClean y = y := by
  have h1 : y.map (fun c => if c = '/' then '_' else c) = y :=
    listMapFix _ y (fun c hc => if_neg (hg c hc).1)
  have h2 : y.map (fun c => if c = '\\' then '_' else c) = y :=
    listMapFix _ y (fun c hc => if_neg (hg c hc).2.1)
  have h3 : y.filter (fun c => c != '\x00') = y :=
    List.filter_eq_self.mpr (fun c hc => bne_iff_ne.mpr (hg c hc).2.2.1)
  have h4 : y.dropWhile (fun c => c == '.' || c == ' ') = y := by
    cases hy : y with
    | nil => rfl
    | cons h t =>
      rw [List.dropWhile_cons, hh h t hy]
      simp
  have h5 : y.map (fun c => if reservedChar c then '_' else c) = y :=
    listMapFix _ y (fun c hc => if_neg (by simp [(hg c hc).2.2.2]))
  rw [pyClean_eq, h1, h2, h3, h4, h5]

theorem sanitize_filename_eq (s : List Char) :
    sanitize_filename s =
      if pyTrunc (pyClean s) = [] then "unnamed_file".toList else pyTrunc (pyClean s) := rfl

set_option maxHeartbeats 1000000 in
/-- C7: the filename sanitizer is idempotent — for every input string `x`,
`sanitize_filename (sanitize_filename x) = sanitize_filename x`. -/
theorem sanitize_filename_idempotent (s : List Char) :
    sanitize_filename (sanitize_filename s) = sanitize_filename s := by
  rw [sanitize_filename_eq s]
  cases hz : pyTrunc (pyClean s) with
  | nil =>
    rw [if_pos rfl]
    decide
  | cons h t =>
    rw [if_neg (by simp)]
    have hgood : ∀ c ∈ h :: t, goodChar c := by
      intro c hc
      exact pyClean_good s c (pyTrunc_subset _ c (hz ▸ hc))
    obtain ⟨h0, t0, hc0⟩ : ∃ h0 t0, pyClean s = h0 :: t0 := by
      cases hc : pyClean s with
      | nil => rw [hc] at hz; simp [pyTrunc] at hz
      | cons a b => exact ⟨a, b, rfl⟩
    obtain ⟨r, hr⟩ := pyTrunc_cons h0 t0
    rw [hc0, hr] at hz
    injection hz with hz1 hz2
    have hhead := pyClean_head s h0 t0 hc0
    subst hz1
    subst hz2
    have hfix : pyClean (h0 :: r) = h0 :: r := by
      apply pyClean_fix _ hgood
      intro h' t' he
      injection he with he1 he2
      subst he1
      simp [hhead.1, hhead.2]
    have htr0 : pyTrunc (pyClean s) = h0 :: r := by rw [hc0, hr]
    have htr : pyTrunc (h0 :: r) = h0 :: r := by
      calc pyTrunc (h0 :: r) = pyTrunc (pyTrunc (pyClean s)) := by rw [htr0]
        _ = pyTrunc (pyClean s) := pyTrunc_idem _
        _ = h0 :: r := htr0
    rw [sanitize_filename_eq, hfix, htr, if_neg (by simp)]

/-- C2 (amended): every character of the sanitizer's output is safe (no
path separator, no backslash, no null byte, none of the reserved
characters), the output is never empty, and its length is bounded by
`max 200 (180 + extension-length)` — it exceeds 200 exactly when the
name's extension is longer than 20 characters, in which case the stem
is still truncated to 180 characters and the whole extension kept. -/
theorem sanitize_filename_safe (s : List Char) :
    (∀ c ∈ sanitize_filename s, goodChar c) ∧
    sanitize_filename s ≠ [] ∧
    (sanitize_filename s).length ≤ max 200 (180 + (pySuffix (pyClean s)).length) := by
  rw [sanitize_filename_eq]
  by_cases hz : pyTrunc (pyClean s) = []
  · rw [if_pos hz]
    refine ⟨by decide, by decide, ?_⟩
    have h12 : ("unnamed_file".toList).length = 12 := by decide
    rw [h12]
    exact le_trans (by norm_num) (le_max_left _ _)
  · rw [if_neg hz]
    refine ⟨?_, hz, ?_⟩
    · intro c hc
      exact pyClean_good s c (pyTrunc_subset _ c hc)
    · unfold pyTrunc
      by_cases hlen : 200 < (pyClean s).length
      · rw [if_pos hlen]
        rw [List.length_append]
        have htl : (List.take 180 (pyStem (pyClean s))).length ≤ 180 := by
          rw [List.length_take]; omega
        exact le_trans (by omega) (le_max_right _ _)
      · rw [if_neg hlen]
        exact le_trans (by omega) (le_max_left _ _)

set_option maxRecDepth 4000 in
/-- C2 counterexample: the claim "output length is at most 200" is false —
on the 202-character input `"a." ++ 200 × 'b'` the sanitizer keeps the
whole 201-character extension, producing a 202-character output. -/
theorem sanitize_filename_long_output :
    200 < (sanitize_filename ('a' :: '.' :: List.replicate 200 'b')).length := by
  decide

/-! ## Streaming downloader (utils/downloader.py) -/

/-- An HTTP response as seen by `_stream_download`: the status code, the
parsed `Content-Length` header (`int(resp.headers.get("Content-Length", 0))`,
hence `0` when the header is absent), and the sizes of the body chunks
yielded by `resp.content.iter_chunked(CHUNK_SIZE)`. -/
structure Response where
  status : Nat
  contentLength : Nat
  chunks : List Nat
deriving DecidableEq

/-- The streaming loop of `_stream_download`: `downloaded += len(chunk)`,
abort and `unlink` once `downloaded > max_size`, otherwise write the chunk
and continue.  Returns `(result, file at dest_path, file sizes after each
write)`: the trace records the on-disk size right after every `fp.write`. -/
def streamChunks (maxSize : Nat) : List Nat → Nat → Option Nat × Option Nat × List Nat
  | [], d => (some d, some d, [])
  | c :: cs, d =>
    let d2 := d + c
    if maxSize < d2 then (none, none, [])
    else
      let r := streamChunks maxSize cs d2
      (r.1, r.2.1, d2 :: r.2.2)

/-- `_stream_download` from utils/downloader.py: reject a non-200 status,
pre-flight-reject a declared `Content-Length` above `max_size`
(`if content_length and content_length > max_size`), else open the
destination file (truncating it) and stream the chunks.  `fs` is the file
present at `dest_path` before the call (`none` = no file); the middle
component of the result is the file at `dest_path` afterwards. -/
def stream_download (r : Response) (maxSize : Nat) (fs : Option Nat) :
    Option Nat × Option Nat × List Nat :=
  if r.status ≠ 200 then (none, fs, [])
  else if r.contentLength ≠ 0 ∧ maxSize < r.contentLength then (none, fs, [])
  else streamChunks maxSize r.chunks 0

/-- What one iteration of `download_file`'s retry loop encounters:
either an HTTP response, or a transport error
(`asyncio.TimeoutError` / `aiohttp.ClientError` / unexpected exception).
A transport error raised mid-stream can leave `leftover` bytes on disk
(`none` = the error happened before the destination file was opened). -/
inductive Attempt where
  | resp (r : Response)
  | exn (leftover : Option Nat)
deriving DecidableEq

/-- Outcome of one iteration of the retry loop. -/
inductive AttemptOut where
  | success (bytes : Nat)
  | failed
  | raised
deriving DecidableEq

/-- One iteration of `download_file`'s `for attempt in range(1, retries+1)`
body: run `_stream_download`; a truthy result returns, a falsy result or a
caught exception falls through to the back-off code. -/
def runAttempt (a : Attempt) (maxSize : Nat) (fs : Option Nat) :
    AttemptOut × Option Nat :=
  match a with
  | .resp r =>
    match stream_download r maxSize fs with
    | (some b, fs2, _) => (.success b, fs2)
    | (none, fs2, _) => (.failed, fs2)
  | .exn w =>
    (.raised, match w with | none => fs | some p => some p)

/-- Result of a whole `download_file` call: the returned value, the file
present at `dest_path` afterwards, how many attempts ran, and the list of
back-off delays slept (in seconds). -/
structure DLResult where
  result : Option Nat
  fileState : Option Nat
  attemptsMade : Nat
  delays : List Nat
deriving DecidableEq

/-- The retry loop of `download_file`: each failed attempt sleeps
`2 ** attempt` seconds when `attempt < retries`; after the loop the stray
partial file is deleted (`dest_path.unlink(missing_ok=True)`) and `None`
is returned.  `idx` is the 1-based attempt counter. -/
def dlLoop (maxSize : Nat) (retries : Nat) :
    List Attempt → Nat → Option Nat → DLResult
  | [], _, _ => { result := none, fileState := none, attemptsMade := 0, delays := [] }
  | a :: rest, idx, fs =>
    match runAttempt a maxSize fs with
    | (.success b, fs2) =>
      { result := some b, fileState := fs2, attemptsMade := 1, delays := [] }
    | (_, fs2) =>
      let tail := dlLoop maxSize retries rest (idx + 1) fs2
      { result := tail.result
        fileState := tail.fileState
        attemptsMade := tail.attemptsMade + 1
        delays := if idx < retries then 2 ^ idx :: tail.delays else tail.delays }

/-- `download_file` from utils/downloader.py: run up to `retries` attempts
(the list supplies what each attempt encounters, so `retries` is its
length), starting with no file at the fresh collision-free `dest_path`. -/
def download_file (atts : List Attempt) (maxSize : Nat) : DLResult :=
  dlLoop maxSize atts.length atts 1 none

/-! ### Downloader lemmas -/

theorem streamChunks_oversize (maxSize : Nat) :
    ∀ (cs : List Nat) (d : Nat), d ≤ maxSize → maxSize < d + cs.sum →
      (streamChunks maxSize cs d).1 = none ∧ (streamChunks maxSize cs d).2.1 = none := by
  intro cs
  induction cs with
  | nil =>
    intro d hd hover
    rw [List.sum_nil] at hover
    omega
  | cons c cs ih =>
    intro d hd hover
    rw [List.sum_cons] at hover
    unfold streamChunks
    by_cases hc : maxSize < d + c
    · rw [if_pos hc]
      exact ⟨rfl, rfl⟩
    · rw [if_neg hc]
      dsimp only
      exact ih (d + c) (by omega) (by omega)

theorem streamChunks_trace_le (maxSize : Nat) :
    ∀ (cs : List Nat) (d : Nat), ∀ v ∈ (streamChunks maxSize cs d).2.2, v ≤ maxSize := by
  intro cs
  induction cs with
  | nil => intro d v hv; cases hv
  | cons c cs ih =>
    intro d v hv
    unfold streamChunks at hv
    by_cases hc : maxSize < d + c
    · rw [if_pos hc] at hv
      cases hv
    · rw [if_neg hc] at hv
      dsimp only at hv
      rcases List.mem_cons.mp hv with rfl | hv
      · omega
      · exact ih (d + c) v hv

theorem stream_download_res_none (r : Response) (maxSize : Nat) (fs : Option Nat)
    (h : maxSize < r.chunks.sum) :
    (stream_download r maxSize fs).1 = none := by
  unfold stream_download
  by_cases h200 : r.status ≠ 200
  · rw [if_pos h200]
  · rw [if_neg h200]
    by_cases hpre : r.contentLength ≠ 0 ∧ maxSize < r.contentLength
    · rw [if_pos hpre]
    · rw [if_neg hpre]
      exact (streamChunks_oversize maxSize r.chunks 0 (Nat.zero_le _) (by omega)).1

theorem runAttempt_failed (a : Attempt) (maxSize : Nat) (fs : Option Nat)
    (h : ∀ r, a = Attempt.resp r → (stream_download r maxSize fs).1 = none) :
    (runAttempt a maxSize fs).1 = AttemptOut.failed ∨
    (runAttempt a maxSize fs).1 = AttemptOut.raised := by
  match a with
  | .exn w => right; rfl
  | .resp r =>
    left
    have hres := h r rfl
    rcases hs : stream_download r maxSize fs with ⟨res, fs2, tr⟩
    rw [hs] at hres
    dsimp only at hres
    subst hres
    unfold runAttempt
    dsimp only
    rw [hs]

theorem dlLoop_allFail (maxSize retries : Nat) :
    ∀ (atts : List Attempt) (idx : Nat) (fs : Option Nat),
      (∀ a ∈ atts, ∀ r, a = Attempt.resp r → maxSize < r.chunks.sum) →
      (dlLoop maxSize retries atts idx fs).result = none ∧
      (dlLoop maxSize retries atts idx fs).fileState = none ∧
      (dlLoop maxSize retries atts idx fs).attemptsMade = atts.length ∧
      (dlLoop maxSize retries atts idx fs).delays =
        ((List.range' idx atts.length).filter (fun j => decide (j < retries))).map
          (fun j => 2 ^ j) := by
  intro atts
  induction atts with
  | nil =>
    intro idx fs _
    exact ⟨rfl, rfl, rfl, rfl⟩
  | cons a rest ih =>
    intro idx fs hall
    have hfail := runAttempt_failed a maxSize fs
      (fun r hr => stream_download_res_none r maxSize fs
        (hall a (List.mem_cons_self _ _) r hr))
    unfold dlLoop
    rcases hra : runAttempt a maxSize fs with ⟨out, fs2⟩
    rw [hra] at hfail
    dsimp only at hfail
    have hrest := ih (idx + 1) fs2
      (fun b hb r hr => hall b (List.mem_cons_of_mem _ hb) r hr)
    rcases hfail with rfl | rfl
    · dsimp only
      refine ⟨hrest.1, hrest.2.1, ?_, ?_⟩
      · dsimp only
        rw [hrest.2.2.1, List.length_cons]
      · dsimp only
        rw [hrest.2.2.2, List.length_cons, List.range'_succ, List.filter_cons]
        by_cases hlt : idx < retries
        · rw [if_pos hlt, decide_eq_true hlt, if_pos rfl, List.map_cons]
        · rw [if_neg hlt, decide_eq_false hlt, if_neg Bool.false_ne_true]
    · dsimp only
      refine ⟨hrest.1, hrest.2.1, ?_, ?_⟩
      · dsimp only
        rw [hrest.2.2.1, List.length_cons]
      · dsimp only
        rw [hrest.2.2.2, List.length_cons, List.range'_succ, List.filter_cons]
        by_cases hlt : idx < retries
        · rw [if_pos hlt, decide_eq_true hlt, if_pos rfl, List.map_cons]
        · rw [if_neg hlt, decide_eq_false hlt, if_neg Bool.false_ne_true]

theorem range'_filter_lt (n : Nat) :
    (List.range' 1 n).filter (fun j => decide (j < n)) = List.range' 1 (n - 1) := by
  cases n with
  | zero => rfl
  | succ m =>
    rw [List.range'_concat, List.filter_append]
    have h1 : (List.range' 1 m).filter (fun j => decide (j < m + 1)) = List.range' 1 m := by
      rw [List.filter_eq_self]
      intro a ha
      have hm := List.mem_range'_1.mp ha
      exact decide_eq_true (by omega)
    have h2 : ([1 + 1 * m].filter (fun j => decide (j < m + 1))) = [] := by
      rw [List.filter_cons, decide_eq_false (by omega), if_neg Bool.false_ne_true]
      rfl
    rw [h1, h2, List.append_nil, Nat.succ_sub_one]

theorem chainPow : ∀ (n s : Nat),
    List.Chain' (fun x y => x < y) ((List.range' s n).map (fun j => 2 ^ j)) := by
  intro n
  induction n with
  | zero => intro s; simp
  | succ m ih =>
    intro s
    rw [List.range'_succ]
    cases m with
    | zero => simp
    | succ k =>
      rw [List.range'_succ, List.map_cons, List.map_cons, List.chain'_cons]
      constructor
      · exact Nat.pow_lt_pow_right (by norm_num) (by omega)
      · have hc := ih (s + 1)
        rw [List.range'_succ, List.map_cons] at hc
        exact hc

/-- C3: a download whose body exceeds `max_size` is always rejected:
(1) whatever each attempt's response looks like, if every served body sums
to more than `max_size` then `download_file` returns `None` and no file
remains at the destination; (2) an oversized declared `Content-Length` is
rejected pre-flight, with the destination file untouched (no bytes
written); (3) a mid-stream excess deletes the partial file and fails the
attempt. -/
theorem download_file_oversize (atts : List Attempt) (maxSize : Nat)
    (hall : ∀ a ∈ atts, ∀ r, a = Attempt.resp r → maxSize < r.chunks.sum) :
    ((download_file atts maxSize).result = none ∧
     (download_file atts maxSize).fileState = none) ∧
    (∀ r fs, r.status = 200 → r.contentLength ≠ 0 → maxSize < r.contentLength →
      stream_download r maxSize fs = (none, fs, [])) ∧
    (∀ r fs, r.status = 200 → (r.contentLength = 0 ∨ r.contentLength ≤ maxSize) →
      maxSize < r.chunks.sum →
      (stream_download r maxSize fs).1 = none ∧
      (stream_download r maxSize fs).2.1 = none) := by
  refine ⟨?_, ?_, ?_⟩
  · have h := dlLoop_allFail maxSize atts.length atts 1 none hall
    exact ⟨h.1, h.2.1⟩
  · intro r fs h200 hcl hbig
    unfold stream_download
    rw [if_neg (by simp [h200]), if_pos ⟨hcl, hbig⟩]
  · intro r fs h200 hcl hbig
    unfold stream_download
    rw [if_neg (by simp [h200]), if_neg (by rcases hcl with h | h <;> simp [h] <;> omega)]
    exact streamChunks_oversize maxSize r.chunks 0 (Nat.zero_le _) (by omega)

/-- C3 witness: concrete instances for all three parts of
`download_file_oversize` (one attempt serving a 5-byte body against
`max_size = 3`; a declared length of 7 against 3; a 5-byte mid-stream
excess against 3). -/
theorem download_file_oversize_witness :
    ((download_file [Attempt.resp ⟨200, 0, [5]⟩] 3).result = none ∧
     (download_file [Attempt.resp ⟨200, 0, [5]⟩] 3).fileState = none) ∧
    stream_download ⟨200, 7, []⟩ 3 none = (none, none, []) ∧
    ((stream_download ⟨200, 0, [5]⟩ 3 none).1 = none ∧
     (stream_download ⟨200, 0, [5]⟩ 3 none).2.1 = none) := by
  have h := download_file_oversize [Attempt.resp ⟨200, 0, [5]⟩] 3
    (by intro a ha r hr
        rcases List.mem_cons.mp ha with rfl | ha
        · cases hr; decide
        · cases ha)
  exact ⟨h.1, h.2.1 ⟨200, 7, []⟩ none rfl (by decide) (by decide),
    h.2.2 ⟨200, 0, [5]⟩ none rfl (Or.inl rfl) (by decide)⟩

/-- C4: when every attempt hits a transport error, `download_file` performs
exactly `retries` (= the number of supplied attempts) attempts, sleeps the
strictly increasing delays `2^1, 2^2, …, 2^(retries-1)` between consecutive
attempts, deletes any stray partial file, and returns `None`. -/
theorem download_file_retry_exhaustion (atts : List Attempt) (maxSize : Nat)
    (hall : ∀ a ∈ atts, ∃ w, a = Attempt.exn w) :
    (download_file atts maxSize).attemptsMade = atts.length ∧
    (download_file atts maxSize).delays =
      (List.range' 1 (atts.length - 1)).map (fun j => 2 ^ j) ∧
    List.Chain' (fun x y => x < y) (download_file atts maxSize).delays ∧
    (download_file atts maxSize).result = none ∧
    (download_file atts maxSize).fileState = none := by
  have h := dlLoop_allFail maxSize atts.length atts 1 none
    (by intro a ha r hr
        obtain ⟨w, hw⟩ := hall a ha
        rw [hw] at hr
        cases hr)
  have hd : (download_file atts maxSize).delays =
      (List.range' 1 (atts.length - 1)).map (fun j => 2 ^ j) := by
    have := h.2.2.2
    rw [range'_filter_lt] at this
    exact this
  refine ⟨h.2.2.1, hd, ?_, h.1, h.2.1⟩
  rw [hd]
  exact chainPow _ _

/-- C4 witness: three transport-error attempts against `max_size = 10`
yield 3 attempts, delays `[2, 4]`, and no result or file. -/
theorem download_file_retry_exhaustion_witness :
    (download_file [Attempt.exn none, Attempt.exn none, Attempt.exn none] 10).attemptsMade
      = 3 ∧
    (download_file [Attempt.exn none, Attempt.exn none, Attempt.exn none] 10).delays
      = [2, 4] ∧
    List.Chain' (fun x y => x < y)
      (download_file [Attempt.exn none, Attempt.exn none, Attempt.exn none] 10).delays ∧
    (download_file [Attempt.exn none, Attempt.exn none, Attempt.exn none] 10).result
      = none ∧
    (download_file [Attempt.exn none, Attempt.exn none, Attempt.exn none] 10).fileState
      = none := by
  have h := download_file_retry_exhaustion
    [Attempt.exn none, Attempt.exn none, Attempt.exn none] 10
    (by intro a ha
        refine ⟨none, ?_⟩
        rcases List.mem_cons.mp ha with rfl | ha
        · rfl
        rcases List.mem_cons.mp ha with rfl | ha
        · rfl
        rcases List.mem_cons.mp ha with rfl | ha
        · rfl
        · cases ha)
  refine ⟨h.1, ?_, h.2.2.1, h.2.2.2⟩
  rw [h.2.1]
  decide

/-- C10: at every point during a streamed download the number of bytes on
disk never exceeds `max_size` — the cumulative check runs after counting a
chunk but before writing it, so every recorded post-write file size in the
trace is at most `max_size`. -/
theorem stream_download_disk_bound (r : Response) (maxSize : Nat) (fs : Option Nat)
    (v : Nat) (hv : v ∈ (stream_download r maxSize fs).2.2) : v ≤ maxSize := by
  unfold stream_download at hv
  by_cases h200 : r.status ≠ 200
  · rw [if_pos h200] at hv; cases hv
  · rw [if_neg h200] at hv
    by_cases hpre : r.contentLength ≠ 0 ∧ maxSize < r.contentLength
    · rw [if_pos hpre] at hv; cases hv
    · rw [if_neg hpre] at hv
      exact streamChunks_trace_le maxSize r.chunks 0 v hv

/-- C10 witness: in a stream of two 5-byte chunks against `max_size = 7`,
the only write ever on disk is 5 bytes, within the limit. -/
theorem stream_download_disk_bound_witness :
    5 ∈ (stream_download ⟨200, 0, [5, 5]⟩ 7 none).2.2 ∧ 5 ≤ 7 :=
  ⟨by decide, stream_download_disk_bound ⟨200, 0, [5, 5]⟩ 7 none 5 (by decide)⟩

/-! ## URL extraction (services/link_router.py) -/

/-- Python regex `\s` on the ASCII range: the whitespace characters that
`[^\s<>"')\]]` excludes (Unicode space classes, which cannot occur inside
a URL candidate, are not modelled). -/
def pyWhitespace (c : Char) : Bool :=
  c == ' ' || c == '\t' || c == '\n' || c == '\r' || c == '\x0b' || c == '\x0c'

/-- The body character class of
`URL_PATTERN = re.compile(r"https?://[^\s<>\"')\]]+", re.IGNORECASE)`:
anything but whitespace, `<`, `>`, `"`, the apostrophe (code 39), `)`, `]`. -/
def urlBodyChar (c : Char) : Bool :=
  !(pyWhitespace c || c == '<' || c == '>' || c == '"' || c == Char.ofNat 39 ||
    c == ')' || c == ']')

/-- Try to match `://` followed by a nonempty greedy `[^…]+` body at the
given input; `scheme` is the part of the match already consumed. -/
def matchSchemeTail (scheme : List Char) : List Char → Option (List Char × List Char)
  | c1 :: s1 :: s2 :: body =>
    if c1 = ':' ∧ s1 = '/' ∧ s2 = '/' then
      let b := body.takeWhile urlBodyChar
      if b = [] then none
      else some (scheme ++ c1 :: s1 :: s2 :: b, body.drop b.length)
    else none
  | _ => none

/-- Try to match `URL_PATTERN` anchored at the head of the input
(case-insensitive `https?` scheme, then `://`, then one or more body
characters): returns the match and the remaining input.  When the greedy
`s?` consumed an `s` but `://` does not follow, the regex engine backtracks
to the no-`s` branch, which then reads the `s` where `:` is required and
fails — mirrored by the fallback call. -/
def matchAt : List Char → Option (List Char × List Char)
  | c1 :: c2 :: c3 :: c4 :: rest =>
    if c1.toLower = 'h' ∧ c2.toLower = 't' ∧ c3.toLower = 't' ∧ c4.toLower = 'p' then
      match rest with
      | s :: rest2 =>
        if s.toLower = 's' then
          match matchSchemeTail [c1, c2, c3, c4, s] rest2 with
          | some m => some m
          | none => matchSchemeTail [c1, c2, c3, c4] rest
        else matchSchemeTail [c1, c2, c3, c4] rest
      | [] => none
    else none
  | _ => none

/-- `URL_PATTERN.findall(text)`: non-overlapping leftmost matches, scanning
left to right.  The fuel argument (the text's length at the top call) only
bounds the recursion; every match consumes at least one character, so the
fuel never runs out before the text does. -/
def findAllAux : Nat → List Char → List (List Char)
  | 0, _ => []
  | _ + 1, [] => []
  | n + 1, c :: cs =>
    match matchAt (c :: cs) with
    | some (m, rest) => m :: findAllAux n rest
    | none => findAllAux n cs

def findAll (text : List Char) : List (List Char) :=
  findAllAux text.length text

/-- The character set of `url.rstrip(".,;:!?)")`. -/
def rstripChar (c : Char) : Bool :=
  c == '.' || c == ',' || c == ';' || c == ':' || c == '!' || c == '?' || c == ')'

/-- Python `url.rstrip(".,;:!?)")`: remove every trailing character that is
in the set. -/
def rstripPunct (s : List Char) : List Char :=
  (s.reverse.dropWhile rstripChar).reverse

/-- The cleaning loop of `extract_urls`: strip trailing punctuation from
each raw match and keep it when it is nonempty and longer than 10
characters (`if url and len(url) > 10`). -/
def cleanUrls : List (List Char) → List (List Char)
  | [] => []
  | u :: rest =>
    let u2 := rstripPunct u
    if u2 ≠ [] ∧ 10 < u2.length then u2 :: cleanUrls rest else cleanUrls rest

/-- `extract_urls` from services/link_router.py: find all URL-pattern
matches, then clean and filter them. -/
def extract_urls (text : List Char) : List (List Char) :=
  cleanUrls (findAll text)

theorem cleanUrls_eq (l : List (List Char)) :
    cleanUrls l = (l.map rstripPunct).filter (fun u => decide (10 < u.length)) := by
  induction l with
  | nil => rfl
  | cons u rest ih =>
    unfold cleanUrls
    rw [List.map_cons, List.filter_cons]
    by_cases h : 10 < (rstripPunct u).length
    · have hne : rstripPunct u ≠ [] := by
        intro he; rw [he] at h; simp at h
      rw [if_pos ⟨hne, h⟩, decide_eq_true h, if_pos rfl, ih]
    · rw [if_neg (fun hc => h hc.2), decide_eq_false h, if_neg Bool.false_ne_true, ih]

set_option maxRecDepth 4000 in
/-- C8: `extract_urls` maps each raw regex match through trailing-punctuation
stripping (`.,;:!?)`), keeps exactly the matches longer than 10 characters,
preserving order and duplicates (it is a map-then-filter, no
deduplication); and on the concrete input
`"grab http://x.test/a.zip please, also http://x.test/b.zip."` it returns
exactly `["http://x.test/a.zip", "http://x.test/b.zip"]`. -/
theorem extract_urls_spec :
    (∀ text : List Char, extract_urls text =
      ((findAll text).map rstripPunct).filter (fun u => decide (10 < u.length))) ∧
    extract_urls ("grab http://x.test/a.zip please, also http://x.test/b.zip.".toList) =
      ["http://x.test/a.zip".toList, "http://x.test/b.zip".toList] := by
  refine ⟨fun text => cleanUrls_eq (findAll text), ?_⟩
  decide

/-! ## Progress tracker (utils/progress.py) -/

/-- The data determining one rendered progress text.  String formatting
(including the float MB display) is abstracted to the determining fields:
equal fields produce byte-identical real texts, so the model's
de-duplication skips at most as often as the real one — sound for
upper-bounding the number of rendered updates. -/
inductive PText where
  | progress (downloaded total : Int)
  | done
  | failed (reason : String)
deriving DecidableEq

/-- `ProgressTracker` state: `update_interval`, `_last_update` (initially
`0.0`) and `_last_text` (initially `""`, modelled as `none`).  The filename
is fixed per tracker and omitted; clock readings (`time.monotonic()`) are
exact rationals. -/
structure ProgressTracker where
  update_interval : ℚ
  lastUpdate : ℚ
  lastText : Option PText
deriving DecidableEq

/-- `ProgressTracker._edit`: skip when the text equals the last rendered
text, else record it and attempt the edit (the swallowed network failure
does not affect the state).  The boolean reports whether a render was
attempted. -/
def ProgressTracker.edit (t : ProgressTracker) (txt : PText) :
    ProgressTracker × Bool :=
  if t.lastText = some txt then (t, false)
  else ({ t with lastText := some txt }, true)

/-- `ProgressTracker.update`: a no-op unless at least `update_interval`
seconds have elapsed on the monotonic clock since the last accepted
update; when accepted, record the time and render the progress text. -/
def ProgressTracker.update (t : ProgressTracker) (now : ℚ) (downloaded total : Int) :
    ProgressTracker × Bool :=
  if now - t.lastUpdate < t.update_interval then (t, false)
  else ({ t with lastUpdate := now }).edit (PText.progress downloaded total)

/-- `ProgressTracker.complete`: terminal render, gated only by
de-duplication, never by the interval. -/
def ProgressTracker.complete (t : ProgressTracker) : ProgressTracker × Bool :=
  t.edit PText.done

/-- `ProgressTracker.error`: terminal error render, gated only by
de-duplication. -/
def ProgressTracker.error (t : ProgressTracker) (reason : String) :
    ProgressTracker × Bool :=
  t.edit (PText.failed reason)

/-- Feed a sequence of progress callbacks `(now, downloaded, total)`
through a tracker, counting the rendered updates. -/
def runUpdates (t : ProgressTracker) : List (ℚ × Int × Int) → ProgressTracker × Nat
  | [] => (t, 0)
  | (now, d, tot) :: rest =>
    let s := t.update now d tot
    let r := runUpdates s.1 rest
    (r.1, (if s.2 then 1 else 0) + r.2)

theorem update_rejected (t : ProgressTracker) (now : ℚ) (d tot : Int)
    (h : now - t.lastUpdate < t.update_interval) :
    t.update now d tot = (t, false) := by
  unfold ProgressTracker.update
  rw [if_pos h]

theorem runUpdates_zero (t0 : ℚ) :
    ∀ (calls : List (ℚ × Int × Int)) (t : ProgressTracker),
      (∀ c ∈ calls, c.1 < t0 + t.update_interval) → t0 ≤ t.lastUpdate →
      (runUpdates t calls).2 = 0 := by
  intro calls
  induction calls with
  | nil => intro t _ _; rfl
  | cons c rest ih =>
    rcases c with ⟨now, d, tot⟩
    intro t hin hge
    have hb := hin _ (List.mem_cons_self _ _)
    have hrej : now - t.lastUpdate < t.update_interval := by
      simp only at hb
      linarith
    unfold runUpdates
    rw [update_rejected t now d tot hrej]
    dsimp only
    rw [ih t (fun c hc => hin c (List.mem_cons_of_mem _ hc)) hge]
    simp

theorem runUpdates_le_one (t0 : ℚ) :
    ∀ (calls : List (ℚ × Int × Int)) (t : ProgressTracker),
      (∀ c ∈ calls, t0 ≤ c.1 ∧ c.1 < t0 + t.update_interval) →
      (runUpdates t calls).2 ≤ 1 := by
  intro calls
  induction calls with
  | nil => intro t _; exact Nat.zero_le 1
  | cons c rest ih =>
    rcases c with ⟨now, d, tot⟩
    intro t hin
    unfold runUpdates
    by_cases hrej : now - t.lastUpdate < t.update_interval
    · rw [update_rejected t now d tot hrej]
      dsimp only
      have htail := ih t (fun c hc => hin c (List.mem_cons_of_mem _ hc))
      simpa using htail
    · have hnow := hin _ (List.mem_cons_self _ _)
      unfold ProgressTracker.update
      rw [if_neg hrej]
      unfold ProgressTracker.edit
      by_cases hdup : ({ t with lastUpdate := now }).lastText
          = some (PText.progress d tot)
      · rw [if_pos hdup]
        dsimp only
        have hz := runUpdates_zero t0 rest { t with lastUpdate := now }
          (fun c hc => (hin c (List.mem_cons_of_mem _ hc)).2) hnow.1
        simp [hz]
      · rw [if_neg hdup]
        dsimp only
        have hz := runUpdates_zero t0 rest
          { t with lastUpdate := now, lastText := some (PText.progress d tot) }
          (fun c hc => (hin c (List.mem_cons_of_mem _ hc)).2) hnow.1
        simp [hz]

/-- C6: the progress reporter's `update` renders nothing unless at least
`update_interval` seconds of monotonic time have elapsed since the last
accepted update; consequently any sequence of callbacks (100 or otherwise)
whose timestamps all lie inside one window shorter than `update_interval`
renders at most one progress update (the terminal complete/error renders
bypass the interval gate and are not counted here). -/
theorem progress_throttle :
    (∀ (t : ProgressTracker) (now : ℚ) (d tot : Int),
      now - t.lastUpdate < t.update_interval →
      t.update now d tot = (t, false)) ∧
    (∀ (t : ProgressTracker) (calls : List (ℚ × Int × Int)) (t0 : ℚ),
      (∀ c ∈ calls, t0 ≤ c.1 ∧ c.1 < t0 + t.update_interval) →
      (runUpdates t calls).2 ≤ 1) :=
  ⟨update_rejected, fun t calls t0 h => runUpdates_le_one t0 calls t h⟩

/-- C6 witness: with a 3-second interval, a call 1 second after the epoch
renders nothing, and two calls at t=5 and t=6 (inside the window `[5, 8)`)
render at most once. -/
theorem progress_throttle_witness :
    ProgressTracker.update ⟨3, 0, none⟩ 1 5 7 = (⟨3, 0, none⟩, false) ∧
    (runUpdates ⟨3, 0, none⟩ [(5, 10, 100), (6, 20, 100)]).2 ≤ 1 := by
  constructor
  · exact progress_throttle.1 ⟨3, 0, none⟩ 1 5 7 (by norm_num)
  · refine progress_throttle.2 ⟨3, 0, none⟩ [(5, 10, 100), (6, 20, 100)] 5 ?_
    intro c hc
    rcases List.mem_cons.mp hc with rfl | hc
    · refine ⟨by norm_num, by norm_num⟩
    rcases List.mem_cons.mp hc with rfl | hc
    · refine ⟨by norm_num, by norm_num⟩
    · cases hc

/-! ## Archive builder and batch orchestration
(utils/zipper.py, services/direct_link_service.py, main.py) -/

/-- `create_zip` from utils/zipper.py, over an abstract session directory:
`files` are the paths passed in, `disk` the files currently on disk,
`out` the archive path.  Inputs that exist are written into the archive
(missing ones are skipped with a logged warning), the finished archive
appears on disk, then every original input is deleted
(`fp.unlink(missing_ok=True)`).  Returns `(archive entries, disk
afterwards)`. -/
def create_zip (files : List String) (disk : List String) (out : String) :
    List String × List String :=
  let entries := files.filter (fun f => decide (f ∈ disk))
  let disk2 := out :: disk
  let disk3 := disk2.filter (fun f => decide (f ∉ files))
  (entries, disk3)

/-- How one `DirectLinkService.process` call ends, as its caller sees it. -/
inductive ProcOutcome where
  | raised
  | noResult
  | result (path : String)
deriving DecidableEq

/-- The environment of one `DirectLinkService.process` call: per-URL
download outcomes (`none` = `download_file` returned `None`), the session
id (`uuid4().hex[:8]`), and an optional injected exception — `raiseAt =
some i` means an unexpected exception is raised inside the `try` block
(during URL handling or the later zipping step); everything inside the
block funnels into the same `except` handler. -/
structure ProcEnv where
  outcomes : List (Option String)
  sessionId : String
  raiseAt : Option Nat

/-- Result of a `process` call: the outcome, how many times
`cleanup_temp_dir` ran, whether the session directory still exists, the
files inside it (empty once it is removed), and the archive contents when
one was built. -/
structure ProcResult where
  outcome : ProcOutcome
  cleanups : Nat
  dirAlive : Bool
  disk : List String
  zipEntries : Option (List String)
deriving DecidableEq

/-- The archive path `temp_dir / f"files_{session_id}.zip"`. -/
def zipName (sessionId : String) : String := "files_" ++ sessionId ++ ".zip"

/-- `DirectLinkService.process` from services/direct_link_service.py.
The session directory is created up front (`get_temp_dir`); inside the
`try` block the URLs are downloaded sequentially (successes land on
disk).  When nothing was downloaded, the service edits the status,
cleans up, and returns `None`; a single success is returned directly; two
or more successes are zipped via `create_zip` and the archive path is
returned.  Any exception inside the block hits the `except` handler,
which runs `cleanup_temp_dir` (removing the directory and all downloads)
and re-raises. -/
def DirectLinkService.process (env : ProcEnv) : ProcResult :=
  match env.raiseAt with
  | some _ =>
    { outcome := .raised, cleanups := 1, dirAlive := false, disk := []
      zipEntries := none }
  | none =>
    match env.outcomes.filterMap id with
    | [] =>
      { outcome := .noResult, cleanups := 1, dirAlive := false, disk := []
        zipEntries := none }
    | [p] =>
      { outcome := .result p, cleanups := 0, dirAlive := true, disk := [p]
        zipEntries := none }
    | p :: q :: rest =>
      let downloaded := p :: q :: rest
      let zp := zipName env.sessionId
      let z := create_zip downloaded downloaded zp
      { outcome := .result zp, cleanups := 0, dirAlive := true, disk := z.2
        zipEntries := some z.1 }

/-- Result of `_process_urls`: total `cleanup_temp_dir` invocations across
the batch, whether the session directory survives it, and whether the user
got the generic error edit. -/
structure UrlsResult where
  cleanups : Nat
  dirAlive : Bool
  userError : Bool
deriving DecidableEq

/-- `_process_urls` from main.py: `session_id` starts as `None`.  The
service call either raises (caught by the `except` arm with `session_id`
still `None`), returns `None` (plain return), or returns
`(path, session_id)` — after which the size gate and the upload may still
raise (`postRaise`), caught by the same `except` arm.  The `finally`
block runs `cleanup_temp_dir` exactly when `session_id` was set. -/
def processUrls (env : ProcEnv) (postRaise : Bool) : UrlsResult :=
  let r := DirectLinkService.process env
  match r.outcome with
  | .raised => { cleanups := r.cleanups, dirAlive := r.dirAlive, userError := true }
  | .noResult => { cleanups := r.cleanups, dirAlive := r.dirAlive, userError := false }
  | .result _ =>
    { cleanups := r.cleanups + 1, dirAlive := false, userError := postRaise }

/-- C1: for every batch — all downloads succeed, all fail, a mix, an
exception inside the service at any step, or a failure after the service
returned — the session temp directory no longer exists when the batch
completes, and `cleanup_temp_dir` was invoked exactly once. -/
theorem batch_cleanup_once (env : ProcEnv) (postRaise : Bool) :
    (processUrls env postRaise).cleanups = 1 ∧
    (processUrls env postRaise).dirAlive = false := by
  rcases env with ⟨outs, sid, ra⟩
  unfold processUrls DirectLinkService.process
  cases ra with
  | some i => exact ⟨rfl, rfl⟩
  | none =>
    dsimp only
    cases houts : outs.filterMap id with
    | nil => exact ⟨rfl, rfl⟩
    | cons p rest =>
      cases rest with
      | nil => exact ⟨rfl, rfl⟩
      | cons q rest2 => exact ⟨rfl, rfl⟩

/-- C5: with no exception injected, (a) zero successful downloads make the
service report failure and return no result; (b) exactly one success makes
that file the batch result directly, with no archive; (c) two or more
successes make the archive `files_<session>.zip` the result, containing
exactly the successfully downloaded files in order, and none of the
original downloads remains on disk afterwards (the archive name not
colliding with a download, which the random session id ensures). -/
theorem batch_collapse (env : ProcEnv) (hnr : env.raiseAt = none) :
    (env.outcomes.filterMap id = [] →
      (DirectLinkService.process env).outcome = ProcOutcome.noResult) ∧
    (∀ p, env.outcomes.filterMap id = [p] →
      (DirectLinkService.process env).outcome = ProcOutcome.result p ∧
      (DirectLinkService.process env).zipEntries = none) ∧
    (2 ≤ (env.outcomes.filterMap id).length →
      zipName env.sessionId ∉ env.outcomes.filterMap id →
      (DirectLinkService.process env).outcome
        = ProcOutcome.result (zipName env.sessionId) ∧
      (DirectLinkService.process env).zipEntries
        = some (env.outcomes.filterMap id) ∧
      ∀ p ∈ env.outcomes.filterMap id,
        p ∉ (DirectLinkService.process env).disk) := by
  rcases env with ⟨outs, sid, ra⟩
  dsimp only at hnr ⊢
  subst hnr
  unfold DirectLinkService.process
  dsimp only
  cases houts : outs.filterMap id with
  | nil =>
    refine ⟨fun _ => rfl, ?_, ?_⟩
    · intro p hp
      simp at hp
    · intro hlen _
      simp at hlen
  | cons p rest =>
    cases rest with
    | nil =>
      refine ⟨?_, ?_, ?_⟩
      · intro h
        simp at h
      · intro x hx
        injection hx with hx1 hx2
        subst hx1
        exact ⟨rfl, rfl⟩
      · intro hlen _
        simp at hlen
    | cons q rest2 =>
      refine ⟨?_, ?_, ?_⟩
      · intro h
        simp at h
      · intro x hx
        simp at hx
      · intro _ hnotin
        unfold create_zip
        dsimp only
        refine ⟨rfl, ?_, ?_⟩
        · have hself : (p :: q :: rest2).filter
              (fun f => decide (f ∈ p :: q :: rest2)) = p :: q :: rest2 :=
            List.filter_eq_self.mpr (fun a ha => decide_eq_true ha)
          rw [hself]
        · intro x hx hmem
          have hm := List.mem_filter.mp hmem
          exact of_decide_eq_true hm.2 hx

/-- C5 witness: a batch of three URLs where the first and third downloads
succeed (as `"a"` and `"b"`) yields the archive `files_s.zip` containing
exactly `["a", "b"]`, and neither original remains on disk. -/
theorem batch_collapse_witness :
    (DirectLinkService.process ⟨[some "a", none, some "b"], "s", none⟩).outcome
      = ProcOutcome.result (zipName "s") ∧
    (DirectLinkService.process ⟨[some "a", none, some "b"], "s", none⟩).zipEntries
      = some ["a", "b"] ∧
    ∀ p ∈ (["a", "b"] : List String),
      p ∉ (DirectLinkService.process ⟨[some "a", none, some "b"], "s", none⟩).disk := by
  have h := (batch_collapse ⟨[some "a", none, some "b"], "s", none⟩ rfl).2.2
    (by decide) (by decide)
  exact ⟨h.1, h.2.1, h.2.2⟩
